import Mathlib

/-!
Verification of the jieba-rs word segmenter (src/lib.rs) against its
natural-language specification.

Shallow embedding conventions:
* A sentence is a list of Unicode scalar values (`List Char`).  The Rust code
  walks byte indices through a precomputed `(byte_offset, char)` table; every
  slice it takes lies on character boundaries, so the embedding works directly
  with character indices and `List.drop`/`List.take`.
* The radix trie `Trie<String, usize>` is embedded as an association list with
  overwrite-on-insert; only `get` and `insert` are used by the code.
* `f64` log-probability scores are abstracted: the embedding carries `Int`
  scores produced by an arbitrary parameter `lnf : Nat -> Int` (standing for
  `(freq as f64).ln()`) and an arbitrary `logtotal : Int`.  All theorems about
  the route are proved for every such parameter, so nothing depends on the
  numeric values the floats would take; the comparison used by `max_by` is
  embedded as the total lexicographic order on `Int x Nat` (the code treats the
  NaN case as `Equal`, defensively; with real log-inputs it does not arise).
* Panics (`unwrap` on malformed dictionary lines) are modelled as `none`
  results, together with the mutated state at the moment of the panic.
* The module `hmm` (hmm.rs) is not part of the sources; everything taken from
  it is modelled from the specification and marked as such.
-/

namespace JiebaRs

/-- A word: a sequence of Unicode scalar values. -/
abbrev Word := List Char

/-- The dictionary store: embedding of `Trie<String, usize>` as an association
list from words to frequencies.  Lookup takes the first matching entry. -/
abbrev Dict := List (Word × Nat)

/-- Embedding of `self.freq.get(word)`: exact lookup. -/
def getFreq (d : Dict) (w : Word) : Option Nat :=
  (d.find? (fun p => p.1 == w)).map (fun p => p.2)

/-- Embedding of `self.freq.insert(word, freq)`: overwrite semantics (the new
binding shadows any previous binding of the same word). -/
def dictInsert (d : Dict) (w : Word) (f : Nat) : Dict :=
  (w, f) :: d.filter (fun p => !(p.1 == w))

/-- Embedding of the sentinel loop of `load_dict` (src/lib.rs lines 123-131):
for each non-empty strict prefix of `word` (the first `i` characters for
`i = 1 .. char_count - 1`), insert frequency 0 if the prefix is absent. -/
def insertSentinels (d0 : Dict) (w : Word) : Dict :=
  (List.range' 1 (w.length - 1)).foldl
    (fun d i => if (getFreq d (w.take i)).isSome then d else dictInsert d (w.take i) 0) d0

/-- One dictionary record insertion as performed by `load_dict`: the word
itself first, then its frequency-0 sentinel prefixes. -/
def insertWord (d : Dict) (w : Word) (f : Nat) : Dict :=
  insertSentinels (dictInsert d w f) w

/-- ASCII whitespace, covering `str::trim` on the line format of the dictionary
(records are `word SP freq ...` plus a trailing line break). -/
def isWsChar (c : Char) : Bool :=
  c == ' ' || c == '\t' || c == '\n' || c == '\r'

/-- Embedding of `buf.trim()` on a line. -/
def trimChars (l : Word) : Word :=
  ((l.dropWhile isWsChar).reverse.dropWhile isWsChar).reverse

/-- Embedding of `str::parse::<usize>()` restricted to the digit strings the
dictionary format uses: `none` exactly when the piece is empty or contains a
non-digit (the `Err` / panic case of the Rust parse). -/
def digitsToNat (w : Word) : Option Nat :=
  if w ≠ [] ∧ w.all Char.isDigit then
    some (w.foldl (fun n c => n * 10 + (c.toNat - 48)) 0)
  else none

/-- Embedding of the per-line parsing of `load_dict` (src/lib.rs lines
118-120): `let parts = buf.trim().split(' ')`; `parts[0]` is the word,
`parts[1]` must parse as an integer.  `none` models the panic on a missing or
non-integer frequency field. -/
def parseLine (line : Word) : Option (Word × Nat) :=
  match List.splitOn ' ' (trimChars line) with
  | w :: p1 :: _ => (digitsToNat p1).map (fun f => (w, f))
  | _ => none

/-- The segmenter state: the dictionary store plus the aggregate total
(struct `Jieba` in src/lib.rs). -/
structure Jieba where
  freq : Dict
  total : Nat
deriving DecidableEq

/-- The line-reading loop of `load_dict`: threads the store and the local
`total` accumulator; `none` models the panic on the first malformed line. -/
def loadDictGo (fr : Dict) (acc : Nat) : List Word → Option (Dict × Nat)
  | [] => some (fr, acc)
  | l :: ls =>
    match parseLine l with
    | none => none
    | some (w, f) => loadDictGo (insertWord fr w f) (acc + f) ls

/-- Embedding of `Jieba::load_dict`: on success the store holds the new
entries and `total` is ASSIGNED the sum of the frequencies parsed in this call
(`self.total = total`, src/lib.rs line 135). -/
def loadDict (st : Jieba) (lines : List Word) : Option Jieba :=
  (loadDictGo st.freq 0 lines).map (fun p => { freq := p.1, total := p.2 })

/-- The store at the moment `load_dict` panics: all records of the lines
before the malformed one have been inserted. -/
def loadDictGoPanic (fr : Dict) : List Word → Dict
  | [] => fr
  | l :: ls =>
    match parseLine l with
    | none => fr
    | some (w, f) => loadDictGoPanic (insertWord fr w f) ls

/-- `load_dict` together with the state the `Jieba` value is left in:
`(some (), st)` on success, `(none, st)` when the call panics on a malformed
line.  On a panic the word map keeps the earlier insertions while `total`
keeps its pre-load value (the assignment `self.total = total` is only reached
on success). -/
def loadDictRun (st : Jieba) (lines : List Word) : Option Unit × Jieba :=
  match loadDictGo st.freq 0 lines with
  | some p => (some (), { freq := p.1, total := p.2 })
  | none => (none, { freq := loadDictGoPanic st.freq lines, total := st.total })

/-- The substring `chars[k..=e]` of a sentence, by character indices. -/
def wordSub (cs : Word) (k e : Nat) : Word :=
  (cs.drop k).take (e + 1 - k)

/-- The inner probe loop of `Jieba::dag` (src/lib.rs lines 171-188), started
at `i = k` with fuel `cs.length - k`:
`while i < word_count { if let Some(freq) = get(chars[k..=i]) { if freq > 0
{ push i }; i += 1; extend wfrag } else { break } }`. -/
def dagEndsGo (d : Dict) (cs : Word) (k : Nat) : Nat → Nat → List Nat
  | _, 0 => []
  | i, fuel + 1 =>
    if i < cs.length then
      match getFreq d (wordSub cs k i) with
      | some f => (if 0 < f then [i] else []) ++ dagEndsGo d cs k (i + 1) fuel
      | none => []
    else []

/-- The adjacency list `ends(k)` produced by `Jieba::dag`: the probe list, or
the singleton `[k]` fallback when it is empty (src/lib.rs lines 189-191). -/
def dagFor (d : Dict) (cs : Word) (k : Nat) : List Nat :=
  let t := dagEndsGo d cs k k (cs.length - k)
  if t = [] then [k] else t

/-- The list the specification describes for `ends(k)`: all positions
`e >= k` (below the sentence length) whose substring `chars[k..=e]` is a
dictionary entry with frequency > 0, in ascending order. -/
def dagSpecList (d : Dict) (cs : Word) (k : Nat) : List Nat :=
  (List.range' k (cs.length - k)).filter
    (fun e => 0 < (getFreq d (wordSub cs k e)).getD 0)

/-- The dictionary invariant the loader establishes: every non-empty strict
prefix of a word with positive frequency is itself present (possibly as a
frequency-0 sentinel). -/
def prefixClosed (d : Dict) : Prop :=
  ∀ w f, getFreq d w = some f → 0 < f →
    ∀ j, 0 < j → j < w.length → (getFreq d (w.take j)).isSome = true

/-- Decidable check of `prefixClosed` on a concrete store. -/
def prefixClosedB (d : Dict) : Bool :=
  d.all (fun p =>
    p.2 == 0 || (List.range' 1 (p.1.length - 1)).all
      (fun j => (getFreq d (p.1.take j)).isSome))

/-- The frequency value `Jieba::calc` feeds into `ln`:
`self.freq.get(wfrag).cloned().unwrap_or(1)` (src/lib.rs line 156).  Only an
ABSENT entry defaults to 1; a stored frequency of 0 is used as 0. -/
def calcFreq (d : Dict) (w : Word) : Nat :=
  (getFreq d w).getD 1

/-- The comparison `Jieba::calc` uses in `max_by`: `partial_cmp` on the pair
(score, end-position), with the (unreachable) incomparable case mapped to
`Equal`.  On the abstracted `Int` scores this is the total lexicographic
order. -/
def pairCmp (a b : Int × Nat) : Ordering :=
  if a.1 < b.1 then Ordering.lt
  else if b.1 < a.1 then Ordering.gt
  else if a.2 < b.2 then Ordering.lt
  else if b.2 < a.2 then Ordering.gt
  else Ordering.eq

/-- Embedding of `Iterator::max_by`: the maximum under `cmp`, the LAST of
several equal maxima, `none` on an empty iterator. -/
def maxByRust (cmp : α → α → Ordering) : List α → Option α
  | [] => none
  | x :: xs => some (xs.foldl (fun a b => if cmp a b = Ordering.gt then a else b) x)

/-- The entry `route[k]` computed by `Jieba::calc` (src/lib.rs lines 146-160),
presented as recursion on the position with fuel (the iterative fill from
`word_count - 1` down to 0 computes exactly this recurrence; `route[e+1]` has
always been filled before `route[k]` is).  `lnf f - logtotal` abstracts
`(freq as f64).ln() - logtotal`; positions at or beyond the sentence length
keep the initialization value `(0, 0)`. -/
def routeAt (lnf : Nat → Int) (logtotal : Int) (d : Dict) (cs : Word) : Nat → Nat → Int × Nat
  | 0, _ => (0, 0)
  | fuel + 1, k =>
    if k < cs.length then
      (maxByRust pairCmp ((dagFor d cs k).map (fun e =>
        (lnf (calcFreq d (wordSub cs k e)) - logtotal
          + (routeAt lnf logtotal d cs fuel (e + 1)).1, e)))).getD (0, 0)
    else (0, 0)

/-- The full route array of `Jieba::calc`: length `n + 1`, entry `k` given by
the recurrence, entry `n` left at the sentinel `(0, 0)`. -/
def calcRoute (lnf : Nat → Int) (logtotal : Int) (d : Dict) (cs : Word) : List (Int × Nat) :=
  (List.range (cs.length + 1)).map (fun k => routeAt lnf logtotal d cs (cs.length - k) k)

/-- The positions visited by the walk of the segmentation drivers
`x <- route[x].1 + 1`, with fuel. -/
def routeWalk (route : List (Int × Nat)) (n : Nat) : Nat → Nat → List Nat
  | 0, _ => []
  | fuel + 1, x =>
    if x < n then x :: routeWalk route n fuel ((route.getD x (0, 0)).2 + 1) else []

/-- `char::is_ascii_alphanumeric`. -/
def isAsciiAlnum (c : Char) : Bool :=
  (decide (48 ≤ c.toNat ∧ c.toNat ≤ 57))
  || (decide (65 ≤ c.toNat ∧ c.toNat ≤ 90))
  || (decide (97 ≤ c.toNat ∧ c.toNat ≤ 122))

/-- The driver loop of `Jieba::cut_dag_no_hmm` (src/lib.rs lines 239-256):
walk the route; a single ASCII-alphanumeric character joins the buffer, any
other word flushes the buffer and is emitted; the buffer is flushed again
after the loop. -/
def cutNoHmmGo (cs : Word) (route : List (Int × Nat)) : Nat → Nat → Word → List Word
  | 0, _, buf => if buf = [] then [] else [buf]
  | fuel + 1, x, buf =>
    if x < cs.length then
      let y := (route.getD x (0, 0)).2 + 1
      let w := (cs.drop x).take (y - x)
      if w.length = 1 ∧ w.all isAsciiAlnum then
        cutNoHmmGo cs route fuel y (buf ++ w)
      else
        (if buf = [] then [] else [buf]) ++ [w] ++ cutNoHmmGo cs route fuel y []
    else if buf = [] then [] else [buf]

/-- Embedding of `Jieba::cut_dag_no_hmm`. -/
def cutDagNoHmm (lnf : Nat → Int) (logtotal : Int) (d : Dict) (cs : Word) : List Word :=
  cutNoHmmGo cs (calcRoute lnf logtotal d cs) (cs.length + 1) 0 []

/-- The four character roles of the HMM. -/
inductive HmmState
  | B
  | M
  | E
  | S
deriving DecidableEq

/-- Modelled from the spec: the Viterbi decoder of the missing module hmm.rs
returns one BMES state per character; a decoded sequence of a wrong length is
padded with `S` / truncated so that extraction is total. -/
def padStates (n : Nat) (sts : List HmmState) : List HmmState :=
  (sts ++ List.replicate n HmmState.S).take n

/-- Modelled from the spec (section 4.4, segmentation extraction): walk the
decoded states left to right; a token closes on `E` or `S`; a trailing open
token is closed at the final character. -/
def tokensFromStates : List (Char × HmmState) → Word → List Word
  | [], acc => if acc = [] then [] else [acc]
  | (c, st) :: rest, acc =>
    if st = HmmState.E ∨ st = HmmState.S then
      (acc ++ [c]) :: tokensFromStates rest []
    else tokensFromStates rest (acc ++ [c])

/-- Modelled from the spec: `hmm::cut` from the missing module hmm.rs.  The
Viterbi decoder itself (initial / transition / emission tables are opaque
input data) is abstracted as the parameter `decode`; the extraction of tokens
from the decoded state sequence follows section 4.4. -/
def hmmCut (decode : Word → List HmmState) (cs : Word) : List Word :=
  tokensFromStates (cs.zip (padStates cs.length (decode cs))) []

/-- The buffer flush of `Jieba::cut_dag_hmm`, duplicated verbatim in the Rust
source at lines 274-286 (on arrival of a multi-character word) and lines
292-304 (after the loop): a one-character buffer is emitted as is; a longer
buffer absent from the store goes through `hmm::cut`; a longer buffer present
in the store (at any frequency) is emitted one character per token. -/
def flushBuf (decode : Word → List HmmState) (d : Dict) (buf : Word) : List Word :=
  if buf.length = 1 then [buf]
  else if (getFreq d buf).isNone then hmmCut decode buf
  else buf.map (fun c => [c])

/-- The driver loop of `Jieba::cut_dag_hmm` (src/lib.rs lines 267-305). -/
def cutHmmGo (decode : Word → List HmmState) (d : Dict) (cs : Word)
    (route : List (Int × Nat)) : Nat → Nat → Word → List Word
  | 0, _, buf => if buf = [] then [] else flushBuf decode d buf
  | fuel + 1, x, buf =>
    if x < cs.length then
      let y := (route.getD x (0, 0)).2 + 1
      let w := (cs.drop x).take (y - x)
      if w.length = 1 then
        cutHmmGo decode d cs route fuel y (buf ++ w)
      else
        (if buf = [] then [] else flushBuf decode d buf) ++ [w]
          ++ cutHmmGo decode d cs route fuel y []
    else if buf = [] then [] else flushBuf decode d buf

/-- Embedding of `Jieba::cut_dag_hmm`. -/
def cutDagHmm (decode : Word → List HmmState) (lnf : Nat → Int) (logtotal : Int)
    (d : Dict) (cs : Word) : List Word :=
  cutHmmGo decode d cs (calcRoute lnf logtotal d cs) (cs.length + 1) 0 []

/-- The character class of `RE_HAN_DEFAULT` (src/lib.rs line 23):
`[一-鿕a-zA-Z0-9+#&._%]` -- Han ideographs U+4E00..U+9FD5, ASCII
letters and digits, and the six characters `+ # & . _ %`. -/
def isHanDefault (c : Char) : Bool :=
  (decide (0x4E00 ≤ c.toNat ∧ c.toNat ≤ 0x9FD5))
  || (decide (97 ≤ c.toNat ∧ c.toNat ≤ 122))
  || (decide (65 ≤ c.toNat ∧ c.toNat ≤ 90))
  || (decide (48 ≤ c.toNat ∧ c.toNat ≤ 57))
  || c == '+' || c == '#' || c == '&' || c == '.' || c == '_' || c == '%'

/-- The dictionary-eligible predicate as the specification states it (section
4.6): the character set of the claim, which additionally lists `-` among the
accepted punctuation. -/
def specHanEligible (c : Char) : Bool :=
  isHanDefault c || c == '-'

/-- Splitting a text into maximal runs of characters of equal class under
`p`: the alternation of captured and unmatched spans that `SplitCaptures`
over the one-class regex `([class]+)` produces (runs are non-empty, in
original order, and concatenate to the input). -/
def runsBy (p : Char → Bool) (cs : Word) : List Word :=
  cs.foldr
    (fun c rs =>
      match rs with
      | [] => [[c]]
      | r :: rs' =>
        match r with
        | [] => [c] :: rs'
        | b :: _ => if p c = p b then (c :: r) :: rs' else [c] :: r :: rs')
    []

/-- The token stream of the secondary pass over an "other" block (src/lib.rs
lines 324-339): `SplitCaptures` over `RE_SKIP_DEAFULT = (\r\n|\s)` yields
single-atom matches (one `\r\n` pair or one whitespace character) and
unmatched spans; a matched atom is pushed verbatim and an unmatched span is
pushed one character at a time, so every token is a single character except
the two-character `\r\n` atoms. -/
def skipTokens : Word → List Word
  | [] => []
  | [c] => [[c]]
  | c1 :: c2 :: rest =>
    if c1 = '\r' ∧ c2 = '\n' then ['\r', '\n'] :: skipTokens rest
    else [c1] :: skipTokens (c2 :: rest)

/-- Embedding of `Jieba::cut` (src/lib.rs lines 309-343): split into blocks
by the `RE_HAN_DEFAULT` class; a block containing an eligible character (the
`is_match` test; by maximality such a block consists only of eligible
characters) goes to the DAG pipeline, any other block to the secondary
pass. -/
def cut (decode : Word → List HmmState) (lnf : Nat → Int) (logtotal : Int)
    (d : Dict) (hmm : Bool) (cs : Word) : List Word :=
  ((runsBy isHanDefault cs).map (fun b =>
    if b.any isHanDefault then
      (if hmm then cutDagHmm decode lnf logtotal d b else cutDagNoHmm lnf logtotal d b)
    else skipTokens b)).flatten

/-- The inner loop of `Jieba::cut_all_internal` (src/lib.rs lines 214-226):
emit `chars[k..=j]` for every `j > k` in the list, updating `old_j` at each
emission; returns the words and the final `old_j`. -/
def cutAllInner (cs : Word) (k : Nat) : List Nat → Int → List Word × Int
  | [], oldj => ([], oldj)
  | j :: js, oldj =>
    if k < j then
      let rest := cutAllInner cs k js (Int.ofNat j)
      (wordSub cs k j :: rest.1, rest.2)
    else cutAllInner cs k js oldj

/-- The outer loop of `Jieba::cut_all_internal` (src/lib.rs lines 202-228):
iterate the DAG positions in ascending order with `old_j` starting at -1; a
single-element list with `k > old_j` emits its one word, any other list goes
through the inner loop. -/
def cutAllGo (d : Dict) (cs : Word) : List Nat → Int → List Word
  | [], _ => []
  | k :: ks, oldj =>
    let l := dagFor d cs k
    if l.length = 1 ∧ oldj < Int.ofNat k then
      wordSub cs k (l.getD 0 0) :: cutAllGo d cs ks (Int.ofNat (l.getD 0 0))
    else
      let inner := cutAllInner cs k l oldj
      inner.1 ++ cutAllGo d cs ks inner.2

/-- Embedding of `Jieba::cut_all_internal`. -/
def cutAllInternal (d : Dict) (cs : Word) : List Word :=
  cutAllGo d cs (List.range cs.length) (-1)

/-- The cut-all walk as the claim words it: left to right, emit
`chars[k..=e]` for each `e` in `ends(k)` with `e` past the last emitted end
position, updating that position at each emission. -/
def specCutAllWalk (d : Dict) (cs : Word) : List Word :=
  ((List.range cs.length).foldl
    (fun (a : List Word × Int) k =>
      (dagFor d cs k).foldl
        (fun (b : List Word × Int) e =>
          if b.2 < Int.ofNat e then (b.1 ++ [wordSub cs k e], Int.ofNat e) else b)
        a)
    ([], -1)).1

/-- A decoder instance (every character a single-character word) used to
instantiate the `decode` parameter in closed statements. -/
def decodeAllS (cs : Word) : List HmmState :=
  cs.map (fun _ => HmmState.S)

/-- A decoder instance marking a whole run as one word. -/
def decodeOneWord (cs : Word) : List HmmState :=
  match cs with
  | [] => []
  | [_] => [HmmState.S]
  | _ :: rest => HmmState.B :: (rest.dropLast.map (fun _ => HmmState.M)) ++ [HmmState.E]

/-- A score-function instance for closed statements. -/
def lnfNat (f : Nat) : Int :=
  Int.ofNat f

/-- The store obtained by loading the single record `ab 2`: the word `ab`
with frequency 2 plus the frequency-0 sentinel prefix `a`. -/
def dAB : Dict :=
  (loadDictRun { freq := [], total := 0 } ["ab 2".toList]).2.freq

/-- A store reproducing, for the sentence of the DAG
assertions, the relevant entries of the canonical dictionary (the bundled
dict.txt is an external resource, not part of the sources; the frequencies
are immaterial, presence and positivity are what the DAG uses). -/
def dMini : Dict :=
  [("网".toList, 20), ("网球".toList, 10), ("网球拍".toList, 5),
   ("球".toList, 5), ("球拍".toList, 5),
   ("拍".toList, 5), ("拍卖".toList, 5), ("拍卖会".toList, 5)]

/-- The store obtained by loading the two records `ab 2` and `bc 2`: on the
sentence `abc` it makes both `ends(0)` and `ends(1)` single-element lists
with an end strictly past the position. -/
def dABBC : Dict :=
  (loadDictRun { freq := [], total := 0 } ["ab 2".toList, "bc 2".toList]).2.freq

/-- The frequency of the last record for `w` in a sequence of dictionary
lines, if any (later lines take precedence). -/
def lastRecord (w : Word) : List Word → Option Nat
  | [] => none
  | l :: ls =>
    match lastRecord w ls with
    | some f => some f
    | none =>
      match parseLine l with
      | some (w', f) => if w' = w then some f else none
      | none => none

/-!  ## Theorems

First the dictionary-store lemmas, then the loader (claims C4 and C5), the
DAG builder (C2, C3), the route solver (C10), the drivers (C1, C6, C7, C8)
and the cut-all walk (C9). -/

theorem getFreq_nil (w : Word) : getFreq [] w = none := rfl

theorem getFreq_filter_ne (d : Dict) (w w' : Word) (h : w' ≠ w) :
    getFreq (d.filter (fun p => !(p.1 == w))) w' = getFreq d w' := by
  induction d with
  | nil => rfl
  | cons p d ih =>
    simp only [List.filter_cons]
    by_cases hp : p.1 = w
    · have h2 : (p.1 == w') = false :=
        beq_eq_false_iff_ne.mpr (by rw [hp]; exact fun hc => h hc.symm)
      rw [if_neg (by simp [hp])]
      rw [ih]
      unfold getFreq
      rw [List.find?_cons_of_neg _ (by simp [h2])]
    · rw [if_pos (by simp [hp])]
      unfold getFreq
      by_cases hq : (p.1 == w') = true
      · simp only [List.find?_cons, hq]
      · simp only [List.find?_cons, Bool.eq_false_iff.mpr hq]
        exact ih

theorem getFreq_dictInsert (d : Dict) (w w' : Word) (f : Nat) :
    getFreq (dictInsert d w f) w' = if w' = w then some f else getFreq d w' := by
  by_cases h : w' = w
  · subst h
    unfold dictInsert getFreq
    simp only [List.find?_cons, BEq.refl, if_pos rfl]
    rfl
  · rw [if_neg h]
    unfold dictInsert
    have h2 : ((w, f).1 == w') = false :=
      beq_eq_false_iff_ne.mpr (fun hc => h hc.symm)
    conv_lhs => unfold getFreq
    rw [List.find?_cons_of_neg _ (by simp [h2])]
    exact getFreq_filter_ne d w w' h

theorem getFreq_insertSentinels_of_isSome (d : Dict) (w w' : Word)
    (h : (getFreq d w').isSome = true) :
    getFreq (insertSentinels d w) w' = getFreq d w' := by
  unfold insertSentinels
  generalize List.range' 1 (w.length - 1) = L
  induction L generalizing d with
  | nil => rfl
  | cons i L ih =>
    simp only [List.foldl_cons]
    by_cases hs : (getFreq d (w.take i)).isSome = true
    · rw [if_pos hs]
      exact ih d h
    · rw [if_neg hs]
      have hne : w' ≠ w.take i := by
        intro hc
        rw [hc] at h
        exact hs h
      have hstep : getFreq (dictInsert d (w.take i) 0) w' = getFreq d w' := by
        rw [getFreq_dictInsert, if_neg hne]
      rw [ih (dictInsert d (w.take i) 0) (by rw [hstep]; exact h), hstep]

theorem getFreq_insertWord_self (d : Dict) (w : Word) (f : Nat) :
    getFreq (insertWord d w f) w = some f := by
  unfold insertWord
  rw [getFreq_insertSentinels_of_isSome, getFreq_dictInsert, if_pos rfl]
  rw [getFreq_dictInsert, if_pos rfl]
  rfl

theorem getFreq_insertWord_ne (d : Dict) (w w' : Word) (f : Nat) (hne : w' ≠ w)
    (h : (getFreq d w').isSome = true) :
    getFreq (insertWord d w f) w' = getFreq d w' := by
  unfold insertWord
  have hstep : getFreq (dictInsert d w f) w' = getFreq d w' := by
    rw [getFreq_dictInsert, if_neg hne]
  rw [getFreq_insertSentinels_of_isSome _ _ _ (by rw [hstep]; exact h), hstep]

theorem loadDictGo_total (lines : List Word) :
    ∀ fr acc p, loadDictGo fr acc lines = some p →
      p.2 = acc + (lines.map (fun l => ((parseLine l).map Prod.snd).getD 0)).sum := by
  induction lines with
  | nil =>
    intro fr acc p h
    simp [loadDictGo] at h
    simp [← h]
  | cons l ls ih =>
    intro fr acc p h
    cases hp : parseLine l with
    | none => simp [loadDictGo, hp] at h
    | some wf =>
      obtain ⟨w1, f1⟩ := wf
      simp only [loadDictGo, hp] at h
      have := ih (insertWord fr w1 f1) (acc + f1) p h
      simp [hp, this]
      omega

theorem loadDictGo_lastRecord_none (lines : List Word) :
    ∀ fr acc p w, loadDictGo fr acc lines = some p → lastRecord w lines = none →
      (getFreq fr w).isSome = true → getFreq p.1 w = getFreq fr w := by
  induction lines with
  | nil =>
    intro fr acc p w h _ _
    simp [loadDictGo] at h
    rw [← h]
  | cons l ls ih =>
    intro fr acc p w h hlast hsome
    cases hp : parseLine l with
    | none =>
      simp [loadDictGo, hp] at h
    | some wf =>
      obtain ⟨w1, f1⟩ := wf
      simp only [loadDictGo, hp] at h
      cases hrec : lastRecord w ls with
      | some f =>
        simp [lastRecord, hrec] at hlast
      | none =>
        simp only [lastRecord, hrec, hp] at hlast
        have hne : w ≠ w1 := by
          intro hc
          rw [if_pos hc.symm] at hlast
          exact absurd hlast (by simp)
        have hstep : getFreq (insertWord fr w1 f1) w = getFreq fr w :=
          getFreq_insertWord_ne fr w1 w f1 hne hsome
        rw [ih (insertWord fr w1 f1) (acc + f1) p w h hrec
          (by rw [hstep]; exact hsome), hstep]

theorem loadDictGo_lastRecord (lines : List Word) :
    ∀ fr acc p w f, loadDictGo fr acc lines = some p → lastRecord w lines = some f →
      getFreq p.1 w = some f := by
  induction lines with
  | nil =>
    intro fr acc p w f _ hlast
    exact absurd hlast (by simp [lastRecord])
  | cons l ls ih =>
    intro fr acc p w f h hlast
    cases hp : parseLine l with
    | none => simp [loadDictGo, hp] at h
    | some wf =>
      obtain ⟨w1, f1⟩ := wf
      simp only [loadDictGo, hp] at h
      cases hrec : lastRecord w ls with
      | some f' =>
        simp only [lastRecord, hrec] at hlast
        simp at hlast
        rw [← hlast]
        exact ih _ _ p w f' h hrec
      | none =>
        simp only [lastRecord, hrec, hp] at hlast
        by_cases hw : w1 = w
        · rw [if_pos hw] at hlast
          simp at hlast
          have hself : getFreq (insertWord fr w1 f1) w = some f1 := by
            rw [hw]
            exact getFreq_insertWord_self fr w f1
          rw [loadDictGo_lastRecord_none ls _ _ p w h hrec (by rw [hself]; rfl), hself,
            hlast]
        · rw [if_neg hw] at hlast
          exact absurd hlast (by simp)

theorem loadDictGo_none_failing_line (lines : List Word) :
    ∀ fr acc, loadDictGo fr acc lines = none →
      ∃ k, k < lines.length ∧ parseLine (lines.getD k []) = none ∧
        ∀ j, j < k → (parseLine (lines.getD j [])).isSome = true := by
  induction lines with
  | nil => intro fr acc h; exact absurd h (by simp [loadDictGo])
  | cons l ls ih =>
    intro fr acc h
    cases hp : parseLine l with
    | none =>
      refine ⟨0, by simp, by simpa using hp, ?_⟩
      intro j hj
      omega
    | some wf =>
      obtain ⟨w1, f1⟩ := wf
      simp only [loadDictGo, hp] at h
      obtain ⟨k, hk, hfail, hok⟩ := ih (insertWord fr w1 f1) (acc + f1) h
      refine ⟨k + 1, by simpa using hk, by simpa using hfail, ?_⟩
      intro j hj
      cases j with
      | zero => simpa using congrArg Option.isSome hp
      | succ j' =>
        have := hok j' (by omega)
        simpa using this

/-- C4 (amended): on a malformed dictionary line `load_dict` panics instead
of returning an error value, and the store is NOT left in its pre-load
state: all records of the lines before the first malformed one have been
inserted, while `total` keeps its pre-load value (the assignment
`self.total = total` is only reached on success). -/
theorem loadDict_panic_state (st : Jieba) (lines : List Word)
    (h : (loadDictRun st lines).1 = none) :
    (loadDictRun st lines).2.total = st.total
    ∧ (loadDictRun st lines).2.freq = loadDictGoPanic st.freq lines
    ∧ ∃ k, k < lines.length ∧ parseLine (lines.getD k []) = none ∧
        ∀ j, j < k → (parseLine (lines.getD j [])).isSome = true := by
  have hgo : loadDictGo st.freq 0 lines = none := by
    unfold loadDictRun at h
    cases hg : loadDictGo st.freq 0 lines with
    | some p => rw [hg] at h; exact absurd h (by simp)
    | none => rfl
  refine ⟨?_, ?_, loadDictGo_none_failing_line lines st.freq 0 hgo⟩
  · unfold loadDictRun
    rw [hgo]
  · unfold loadDictRun
    rw [hgo]

/-- C4 witness: a two-line load whose second line has no frequency field. -/
theorem loadDict_panic_state_witness :
    (loadDictRun { freq := [(['z'], 7)], total := 9 } ["ab 2".toList, "cd".toList]).1 = none
    ∧ ((loadDictRun { freq := [(['z'], 7)], total := 9 }
          ["ab 2".toList, "cd".toList]).2.total = 9
      ∧ (loadDictRun { freq := [(['z'], 7)], total := 9 }
          ["ab 2".toList, "cd".toList]).2.freq
          = loadDictGoPanic [(['z'], 7)] ["ab 2".toList, "cd".toList]
      ∧ ∃ k, k < (["ab 2".toList, "cd".toList] : List Word).length
          ∧ parseLine ((["ab 2".toList, "cd".toList] : List Word).getD k []) = none
          ∧ ∀ j, j < k →
              (parseLine ((["ab 2".toList, "cd".toList] : List Word).getD j [])).isSome
                = true) :=
  ⟨by decide,
   loadDict_panic_state { freq := [(['z'], 7)], total := 9 }
     ["ab 2".toList, "cd".toList] (by decide)⟩

/-- C4 counterexample: the claim says a failing load leaves the store in its
pre-load state; here a load that fails on its second line has already
inserted the record of the first line into the (initially empty) store. -/
theorem loadDict_atomicity_cex :
    (loadDictRun { freq := [], total := 0 } ["ab 2".toList, "cd".toList]).1 = none
    ∧ (loadDictRun { freq := [], total := 0 } ["ab 2".toList, "cd".toList]).2.freq ≠ []
    ∧ getFreq (loadDictRun { freq := [], total := 0 }
        ["ab 2".toList, "cd".toList]).2.freq "ab".toList = some 2 :=
  ⟨by decide, by decide, by decide⟩

/-- C5 (amended): a successful `load_dict` call merges word frequencies by
overwrite (the LAST record for a word wins) but OVERWRITES `total` with the
sum of the frequencies parsed in this call alone (sentinel prefixes
contribute nothing); totals of earlier loads are discarded. -/
theorem loadDict_merge (st : Jieba) (lines : List Word) (st2 : Jieba)
    (h : loadDict st lines = some st2) :
    st2.total = (lines.map (fun l => ((parseLine l).map Prod.snd).getD 0)).sum
    ∧ ∀ w f, lastRecord w lines = some f → getFreq st2.freq w = some f := by
  unfold loadDict at h
  cases hg : loadDictGo st.freq 0 lines with
  | none => rw [hg] at h; exact absurd h (by simp)
  | some p =>
    rw [hg] at h
    simp at h
    constructor
    · have := loadDictGo_total lines st.freq 0 p hg
      rw [← h]
      simpa using this
    · intro w f hlast
      rw [← h]
      exact loadDictGo_lastRecord lines st.freq 0 p w f hg hlast

/-- C5 witness: loading `a 3` then `ab 2` in one call gives total 5 and a
store in which the later record would win. -/
theorem loadDict_merge_witness :
    ({ freq := [(['a', 'b'], 2), (['a'], 3)], total := 5 } : Jieba).total
      = ((["a 3".toList, "ab 2".toList] : List Word).map
          (fun l => ((parseLine l).map Prod.snd).getD 0)).sum
    ∧ ∀ w f, lastRecord w ["a 3".toList, "ab 2".toList] = some f →
        getFreq ({ freq := [(['a', 'b'], 2), (['a'], 3)], total := 5 } : Jieba).freq w
          = some f :=
  loadDict_merge { freq := [], total := 0 } ["a 3".toList, "ab 2".toList]
    { freq := [(['a', 'b'], 2), (['a'], 3)], total := 5 } (by decide)

/-- C5 counterexample: the claim says a second load ADDS its frequencies to
the existing total; after loading `a 3` and then, in a second call, `b 5`,
the code leaves `total = 5` (the own sum of the second load), not `3 + 5`. -/
theorem loadDict_total_overwrite_cex :
    ((loadDict { freq := [], total := 0 } ["a 3".toList]).bind
        (fun st => loadDict st ["b 5".toList])).map Jieba.total = some 5
    ∧ (5 : Nat) ≠ 3 + 5 :=
  ⟨by decide, by decide⟩

theorem getFreq_entry (d : Dict) (w : Word) (f : Nat) (h : getFreq d w = some f) :
    ∃ p, p ∈ d ∧ p.1 = w ∧ p.2 = f := by
  unfold getFreq at h
  cases hf : d.find? (fun p => p.1 == w) with
  | none => rw [hf] at h; exact absurd h (by simp)
  | some p =>
    rw [hf] at h
    simp at h
    exact ⟨p, List.mem_of_find?_eq_some hf, by simpa using List.find?_some hf, h⟩

theorem prefixClosedB_sound (d : Dict) (h : prefixClosedB d = true) : prefixClosed d := by
  intro w f hget hf j hj hjl
  obtain ⟨p, hmem, hw, hpf⟩ := getFreq_entry d w f hget
  unfold prefixClosedB at h
  have hp := (List.all_eq_true.mp h) p hmem
  have h0 : (p.2 == 0) = false := by
    rw [hpf]
    simp
    omega
  rw [h0] at hp
  simp only [Bool.false_or] at hp
  have := (List.all_eq_true.mp hp) j
  rw [hw] at this
  refine this ?_
  rw [List.mem_range'_1]
  omega

theorem dagEndsGo_eq_filter (d : Dict) (cs : Word) (k : Nat) (hcl : prefixClosed d) :
    ∀ fuel i, fuel = cs.length - i → k ≤ i →
      dagEndsGo d cs k i fuel =
        (List.range' i fuel).filter (fun e => 0 < (getFreq d (wordSub cs k e)).getD 0) := by
  intro fuel
  induction fuel with
  | zero => intro i _ _; rfl
  | succ fuel ih =>
    intro i hfi hki
    have hi : i < cs.length := by omega
    show (if i < cs.length then
        match getFreq d (wordSub cs k i) with
        | some f => (if 0 < f then [i] else []) ++ dagEndsGo d cs k (i + 1) fuel
        | none => []
      else []) = _
    rw [if_pos hi, List.range'_succ i fuel 1, List.filter_cons]
    cases hg : getFreq d (wordSub cs k i) with
    | some f =>
      dsimp only
      rw [ih (i + 1) (by omega) (by omega)]
      by_cases hf : 0 < f
      · rw [if_pos hf, if_pos (by simpa using hf)]
        rfl
      · rw [if_neg hf, if_neg (by simpa using hf)]
        rfl
    | none =>
      dsimp only
      rw [if_neg (by simp)]
      refine (List.filter_eq_nil_iff.mpr ?_).symm
      intro e hmem
      rw [List.mem_range'_1] at hmem
      have hie : i < e := by omega
      have hel : e < cs.length := by omega
      simp only [decide_eq_true_eq, not_lt, Nat.le_zero]
      cases hg2 : getFreq d (wordSub cs k e) with
      | none => rfl
      | some f2 =>
        by_cases hf2 : 0 < f2
        · exfalso
          have hlen : (wordSub cs k e).length = e + 1 - k := by
            unfold wordSub
            rw [List.length_take, List.length_drop]
            omega
          have htake : (wordSub cs k e).take (i + 1 - k) = wordSub cs k i := by
            unfold wordSub
            rw [List.take_take]
            congr 1
            omega
          have := hcl (wordSub cs k e) f2 hg2 hf2 (i + 1 - k) (by omega) (by omega)
          rw [htake, hg] at this
          simp at this
        · simp [Option.getD]
          omega

theorem dagEndsGo_pos (d : Dict) (cs : Word) (k : Nat) :
    ∀ fuel i e, e ∈ dagEndsGo d cs k i fuel →
      ∃ f, getFreq d (wordSub cs k e) = some f ∧ 0 < f ∧ i ≤ e ∧ e < cs.length := by
  intro fuel
  induction fuel with
  | zero => intro i e he; exact absurd he (by simp [dagEndsGo])
  | succ fuel ih =>
    intro i e he
    unfold dagEndsGo at he
    by_cases hi : i < cs.length
    · rw [if_pos hi] at he
      cases hg : getFreq d (wordSub cs k i) with
      | none => rw [hg] at he; exact absurd he (by simp)
      | some f =>
        rw [hg] at he
        rw [List.mem_append] at he
        rcases he with he | he
        · by_cases hf : 0 < f
          · rw [if_pos hf] at he
            simp at he
            rw [he]
            exact ⟨f, hg, hf, Nat.le_refl i, hi⟩
          · rw [if_neg hf] at he
            exact absurd he (by simp)
        · obtain ⟨f2, h1, h2, h3, h4⟩ := ih (i + 1) e he
          exact ⟨f2, h1, h2, by omega, h4⟩
    · rw [if_neg hi] at he
      exact absurd he (by simp)

theorem dagFor_fallback_zero (d : Dict) (cs : Word) (k : Nat) (hk : k < cs.length)
    (hemp : dagEndsGo d cs k k (cs.length - k) = []) :
    ∀ f, getFreq d (wordSub cs k k) = some f → f = 0 := by
  intro f hg
  obtain ⟨m, hm⟩ : ∃ m, cs.length - k = m + 1 := ⟨cs.length - k - 1, by omega⟩
  rw [hm] at hemp
  unfold dagEndsGo at hemp
  rw [if_pos hk, hg] at hemp
  dsimp only at hemp
  by_cases hf : 0 < f
  · rw [if_pos hf] at hemp
    exact absurd hemp (by simp)
  · omega

/-- C2: for every prefix-closed store (the only kind `load_dict` builds) and
every position `k` of the sentence, `Jieba::dag` maps `k` to exactly the
ascending list of ends `e >= k` whose substring `chars[k..=e]` is a
dictionary entry with frequency > 0 (`dagSpecList`), falling back to `[k]`
when that list is empty; hence `ends(k)` is strictly increasing, non-empty,
and all its elements are at least `k`. -/
theorem dag_spec (d : Dict) (cs : Word) (k : Nat) (hcl : prefixClosed d)
    (_hk : k < cs.length) :
    dagFor d cs k
      = (if dagSpecList d cs k = [] then [k] else dagSpecList d cs k)
    ∧ List.Pairwise (· < ·) (dagFor d cs k)
    ∧ dagFor d cs k ≠ []
    ∧ ∀ e ∈ dagFor d cs k, k ≤ e := by
  have hmain : dagFor d cs k
      = (if dagSpecList d cs k = [] then [k] else dagSpecList d cs k) := by
    unfold dagFor dagSpecList
    rw [dagEndsGo_eq_filter d cs k hcl (cs.length - k) k rfl (Nat.le_refl k)]
  have hspec_sub : ∀ e ∈ dagSpecList d cs k, k ≤ e := by
    intro e he
    unfold dagSpecList at he
    have := List.mem_of_mem_filter he
    rw [List.mem_range'_1] at this
    omega
  have hspec_pw : List.Pairwise (· < ·) (dagSpecList d cs k) :=
    (List.pairwise_lt_range' k (cs.length - k) 1).filter _
  refine ⟨hmain, ?_, ?_, ?_⟩
  · rw [hmain]
    by_cases hemp : dagSpecList d cs k = []
    · rw [if_pos hemp]
      exact List.pairwise_singleton _ _
    · rw [if_neg hemp]
      exact hspec_pw
  · rw [hmain]
    by_cases hemp : dagSpecList d cs k = []
    · rw [if_pos hemp]
      simp
    · rw [if_neg hemp]
      exact hemp
  · rw [hmain]
    by_cases hemp : dagSpecList d cs k = []
    · rw [if_pos hemp]
      intro e he
      simp at he
      omega
    · rw [if_neg hemp]
      exact hspec_sub

/-- C2 witness: the store loaded from the single record `ab 2` is
prefix-closed, and on the sentence `ax` position 0 falls back to `[0]` (the
only candidates `a` and `ax` have no positive frequency). -/
theorem dag_spec_witness :
    dagFor dAB "ax".toList 0
      = (if dagSpecList dAB "ax".toList 0 = [] then [0]
          else dagSpecList dAB "ax".toList 0)
    ∧ List.Pairwise (· < ·) (dagFor dAB "ax".toList 0)
    ∧ dagFor dAB "ax".toList 0 ≠ []
    ∧ ∀ e ∈ dagFor dAB "ax".toList 0, 0 ≤ e :=
  dag_spec dAB "ax".toList 0 (prefixClosedB_sound dAB (by decide)) (by decide)

/-- C3 (amended): the frequency `f` the Route Solver feeds into the score is
the stored dictionary value whenever the lookup succeeds -- INCLUDING a
stored 0 -- and defaults to 1 only when the lookup is absent.  Consequently,
for a DAG candidate `e` of position `k`, `f = 0` happens exactly when `e` is
the single-character fallback `[k]` and that character is stored as a
frequency-0 sentinel prefix, and there the score is `ln 0` (minus
infinity). -/
theorem calcFreq_cases (d : Dict) (cs : Word) (k e : Nat) (hk : k < cs.length)
    (he : e ∈ dagFor d cs k) :
    (calcFreq d (wordSub cs k e) = 0
      ↔ e = k ∧ getFreq d (wordSub cs k k) = some 0)
    ∧ (∀ f, getFreq d (wordSub cs k e) = some f → calcFreq d (wordSub cs k e) = f)
    ∧ (getFreq d (wordSub cs k e) = none → calcFreq d (wordSub cs k e) = 1) := by
  refine ⟨?_, ?_, ?_⟩
  · unfold dagFor at he
    by_cases hemp : dagEndsGo d cs k k (cs.length - k) = []
    · rw [hemp] at he
      have hek : e = k := by simpa using he
      constructor
      · intro h0
        refine ⟨hek, ?_⟩
        rw [hek] at h0
        cases hg : getFreq d (wordSub cs k k) with
        | none =>
          unfold calcFreq at h0
          rw [hg] at h0
          simp at h0
        | some f =>
          have := dagFor_fallback_zero d cs k hk hemp f hg
          rw [this]
      · intro ⟨_, hg⟩
        rw [hek]
        unfold calcFreq
        rw [hg]
        rfl
    · rw [if_neg hemp] at he
      obtain ⟨f, hg, hf, _, _⟩ := dagEndsGo_pos d cs k _ k e he
      constructor
      · intro h0
        unfold calcFreq at h0
        rw [hg] at h0
        simp at h0
        omega
      · intro ⟨hek, hg0⟩
        subst hek
        rw [hg0] at hg
        simp at hg
        omega
  · intro f hg
    unfold calcFreq
    rw [hg]
    rfl
  · intro hg
    unfold calcFreq
    rw [hg]
    rfl

/-- C3 witness: on the store loaded from `ab 2` and the sentence `ax`, the
fallback candidate at position 0 hits the frequency-0 sentinel `a`, so the
frequency used is 0 (not 1). -/
theorem calcFreq_cases_witness :
    (calcFreq dAB (wordSub "ax".toList 0 0) = 0
      ↔ 0 = 0 ∧ getFreq dAB (wordSub "ax".toList 0 0) = some 0)
    ∧ (∀ f, getFreq dAB (wordSub "ax".toList 0 0) = some f →
        calcFreq dAB (wordSub "ax".toList 0 0) = f)
    ∧ (getFreq dAB (wordSub "ax".toList 0 0) = none →
        calcFreq dAB (wordSub "ax".toList 0 0) = 1) :=
  calcFreq_cases dAB "ax".toList 0 0 (by decide) (by decide)

/-- C3 counterexample: at the single-character fallback whose entry is the
frequency-0 sentinel `a`, the frequency used is the stored 0, not the
claimed default 1 -- the score there is `ln 0`. -/
theorem calcFreq_zero_cex :
    dagFor dAB "ax".toList 0 = [0]
    ∧ getFreq dAB (wordSub "ax".toList 0 0) = some 0
    ∧ calcFreq dAB (wordSub "ax".toList 0 0) = 0
    ∧ calcFreq dAB (wordSub "ax".toList 0 0) ≠ 1 :=
  ⟨by decide, by decide, by decide, by decide⟩

theorem foldl_choice_mem (cmp : α → α → Ordering) :
    ∀ (xs : List α) (a : α),
      xs.foldl (fun a b => if cmp a b = Ordering.gt then a else b) a ∈ a :: xs := by
  intro xs
  induction xs with
  | nil => intro a; simp
  | cons x xs ih =>
    intro a
    simp only [List.foldl_cons]
    by_cases hc : cmp a x = Ordering.gt
    · rw [if_pos hc]
      rcases List.mem_cons.mp (ih a) with h | h
      · rw [h]
        simp
      · exact List.mem_cons_of_mem _ (List.mem_cons_of_mem _ h)
    · rw [if_neg hc]
      rcases List.mem_cons.mp (ih x) with h | h
      · rw [h]
        simp
      · exact List.mem_cons_of_mem _ (List.mem_cons_of_mem _ h)

theorem maxByRust_mem (cmp : α → α → Ordering) (l : List α) (x0 : α) (h : l ≠ []) :
    (maxByRust cmp l).getD x0 ∈ l := by
  cases l with
  | nil => exact absurd rfl h
  | cons x xs =>
    unfold maxByRust
    simp only [Option.getD_some]
    exact foldl_choice_mem cmp xs x

theorem dagFor_ne_nil (d : Dict) (cs : Word) (k : Nat) : dagFor d cs k ≠ [] := by
  unfold dagFor
  by_cases hemp : dagEndsGo d cs k k (cs.length - k) = []
  · rw [hemp]
    simp
  · rw [if_neg hemp]
    exact hemp

theorem dagFor_bounds (d : Dict) (cs : Word) (k : Nat) (hk : k < cs.length) :
    ∀ e ∈ dagFor d cs k, k ≤ e ∧ e < cs.length := by
  intro e he
  unfold dagFor at he
  by_cases hemp : dagEndsGo d cs k k (cs.length - k) = []
  · rw [hemp] at he
    simp at he
    omega
  · rw [if_neg hemp] at he
    obtain ⟨_, _, _, h3, h4⟩ := dagEndsGo_pos d cs k _ k e he
    exact ⟨h3, h4⟩

theorem routeAt_snd_mem (lnf : Nat → Int) (logtotal : Int) (d : Dict) (cs : Word)
    (fuel k : Nat) (hk : k < cs.length) :
    (routeAt lnf logtotal d cs (fuel + 1) k).2 ∈ dagFor d cs k := by
  unfold routeAt
  rw [if_pos hk]
  have hne : (dagFor d cs k).map (fun e =>
      (lnf (calcFreq d (wordSub cs k e)) - logtotal
        + (routeAt lnf logtotal d cs fuel (e + 1)).1, e)) ≠ [] := by
    simp
    exact dagFor_ne_nil d cs k
  have := maxByRust_mem pairCmp _ ((0 : Int), (0 : Nat)) hne
  rw [List.mem_map] at this
  obtain ⟨e, hmem, heq⟩ := this
  rw [← heq]
  exact hmem

theorem calcRoute_getD (lnf : Nat → Int) (logtotal : Int) (d : Dict) (cs : Word)
    (k : Nat) (hk : k ≤ cs.length) :
    (calcRoute lnf logtotal d cs).getD k (0, 0)
      = routeAt lnf logtotal d cs (cs.length - k) k := by
  unfold calcRoute
  rw [List.getD_eq_getElem?_getD, List.getElem?_map, List.getElem?_range (by omega)]
  rfl

theorem routeWalk_props (route : List (Int × Nat)) (n : Nat)
    (hv : ∀ x, x < n → x < (route.getD x (0, 0)).2 + 1 ∧ (route.getD x (0, 0)).2 + 1 ≤ n) :
    ∀ fuel x,
      (∀ z ∈ routeWalk route n fuel x, x ≤ z ∧ z < n)
      ∧ List.Chain' (· < ·) (routeWalk route n fuel x)
      ∧ (routeWalk route n fuel x).length ≤ n - x := by
  intro fuel
  induction fuel with
  | zero =>
    intro x
    refine ⟨?_, ?_, ?_⟩ <;> simp [routeWalk]
  | succ fuel ih =>
    intro x
    by_cases hx : x < n
    · obtain ⟨hmem, hchain, hlen⟩ := ih ((route.getD x (0, 0)).2 + 1)
      have hy := hv x hx
      have hwalk : routeWalk route n (fuel + 1) x
          = x :: routeWalk route n fuel ((route.getD x (0, 0)).2 + 1) := by
        simp only [routeWalk, if_pos hx]
      refine ⟨?_, ?_, ?_⟩
      · rw [hwalk]
        intro z hz
        rcases List.mem_cons.mp hz with rfl | hz
        · omega
        · have := hmem z hz
          omega
      · rw [hwalk, List.chain'_cons']
        refine ⟨?_, hchain⟩
        intro b hb
        have := hmem b (List.mem_of_mem_head? hb)
        omega
      · rw [hwalk]
        simp only [List.length_cons]
        omega
    · have hwalk : routeWalk route n (fuel + 1) x = [] := by
        simp only [routeWalk, if_neg hx]
      rw [hwalk]
      refine ⟨?_, ?_, ?_⟩ <;> simp

/-- C10: for every sentence (and every abstracted score function) the route
returned by `Jieba::calc` has length `n + 1` with `route[n]` left at the
sentinel `(0, 0)`; for every `k < n` the chosen end `route[k].1` is an
element of `ends(k)`, hence between `k` and `n - 1`; consequently the
walk `x <- route[x].1 + 1` of the drivers visits strictly increasing positions,
all below `n`, and terminates after at most `n` steps with every access in
bounds. -/
theorem route_invariants (lnf : Nat → Int) (logtotal : Int) (d : Dict) (cs : Word) :
    (calcRoute lnf logtotal d cs).length = cs.length + 1
    ∧ (calcRoute lnf logtotal d cs).getD cs.length (0, 0) = (0, 0)
    ∧ (∀ k, k < cs.length →
        ((calcRoute lnf logtotal d cs).getD k (0, 0)).2 ∈ dagFor d cs k
        ∧ k ≤ ((calcRoute lnf logtotal d cs).getD k (0, 0)).2
        ∧ ((calcRoute lnf logtotal d cs).getD k (0, 0)).2 < cs.length)
    ∧ List.Chain' (· < ·)
        (routeWalk (calcRoute lnf logtotal d cs) cs.length cs.length 0)
    ∧ (routeWalk (calcRoute lnf logtotal d cs) cs.length cs.length 0).length ≤ cs.length
    ∧ ∀ x ∈ routeWalk (calcRoute lnf logtotal d cs) cs.length cs.length 0,
        x < cs.length := by
  have hgetn : (calcRoute lnf logtotal d cs).getD cs.length (0, 0) = (0, 0) := by
    rw [calcRoute_getD lnf logtotal d cs cs.length (Nat.le_refl _), Nat.sub_self]
    rfl
  have hk : ∀ k, k < cs.length →
      ((calcRoute lnf logtotal d cs).getD k (0, 0)).2 ∈ dagFor d cs k
      ∧ k ≤ ((calcRoute lnf logtotal d cs).getD k (0, 0)).2
      ∧ ((calcRoute lnf logtotal d cs).getD k (0, 0)).2 < cs.length := by
    intro k hklt
    obtain ⟨m, hm⟩ : ∃ m, cs.length - k = m + 1 := ⟨cs.length - k - 1, by omega⟩
    have hget : (calcRoute lnf logtotal d cs).getD k (0, 0)
        = routeAt lnf logtotal d cs (m + 1) k := by
      rw [calcRoute_getD lnf logtotal d cs k (by omega), hm]
    rw [hget]
    have hmem := routeAt_snd_mem lnf logtotal d cs m k hklt
    have hbd := dagFor_bounds d cs k hklt _ hmem
    exact ⟨hmem, hbd.1, hbd.2⟩
  have hv : ∀ x, x < cs.length →
      x < ((calcRoute lnf logtotal d cs).getD x (0, 0)).2 + 1
      ∧ ((calcRoute lnf logtotal d cs).getD x (0, 0)).2 + 1 ≤ cs.length := by
    intro x hx
    have := hk x hx
    omega
  obtain ⟨hmem, hchain, hlen⟩ :=
    routeWalk_props (calcRoute lnf logtotal d cs) cs.length hv cs.length 0
  refine ⟨by simp [calcRoute], hgetn, hk, hchain, by omega, ?_⟩
  intro x hx
  exact (hmem x hx).2

/-- The route validity fact the drivers rely on, as a reusable lemma. -/
theorem calcRoute_valid (lnf : Nat → Int) (logtotal : Int) (d : Dict) (cs : Word) :
    ∀ z, z < cs.length →
      z ≤ ((calcRoute lnf logtotal d cs).getD z (0, 0)).2
      ∧ ((calcRoute lnf logtotal d cs).getD z (0, 0)).2 < cs.length := by
  intro z hz
  obtain ⟨m, hm⟩ : ∃ m, cs.length - z = m + 1 := ⟨cs.length - z - 1, by omega⟩
  have hget : (calcRoute lnf logtotal d cs).getD z (0, 0)
      = routeAt lnf logtotal d cs (m + 1) z := by
    rw [calcRoute_getD lnf logtotal d cs z (by omega), hm]
  rw [hget]
  exact dagFor_bounds d cs z hz _ (routeAt_snd_mem lnf logtotal d cs m z hz)

/-- C10 witness: the invariants instantiated on the store loaded from `ab 2`
and the sentence `ax`, with the inner bound hypotheses discharged at
position 0. -/
theorem route_invariants_witness :
    (calcRoute lnfNat 0 dAB "ax".toList).length = 3
    ∧ ((calcRoute lnfNat 0 dAB "ax".toList).getD 0 (0, 0)).2 ∈ dagFor dAB "ax".toList 0
    ∧ 0 ≤ ((calcRoute lnfNat 0 dAB "ax".toList).getD 0 (0, 0)).2
    ∧ ((calcRoute lnfNat 0 dAB "ax".toList).getD 0 (0, 0)).2 < ("ax".toList : Word).length :=
  ⟨(route_invariants lnfNat 0 dAB "ax".toList).1,
   ((route_invariants lnfNat 0 dAB "ax".toList).2.2.1 0 (by decide)).1,
   ((route_invariants lnfNat 0 dAB "ax".toList).2.2.1 0 (by decide)).2.1,
   ((route_invariants lnfNat 0 dAB "ax".toList).2.2.1 0 (by decide)).2.2⟩

theorem flatten_map_singleton (l : Word) : (l.map (fun c => [c])).flatten = l := by
  induction l with
  | nil => rfl
  | cons c l ih => simp [ih]

theorem tokensFromStates_flatten :
    ∀ (l : List (Char × HmmState)) (acc : Word),
      (tokensFromStates l acc).flatten = acc ++ l.map Prod.fst := by
  intro l
  induction l with
  | nil =>
    intro acc
    by_cases h : acc = []
    · simp [tokensFromStates, h]
    · simp [tokensFromStates, h]
  | cons p l ih =>
    intro acc
    obtain ⟨c, st⟩ := p
    by_cases h : st = HmmState.E ∨ st = HmmState.S
    · simp only [tokensFromStates, if_pos h, List.flatten_cons, ih []]
      simp
    · simp only [tokensFromStates, if_neg h, ih (acc ++ [c])]
      simp

theorem hmmCut_flatten (decode : Word → List HmmState) (cs : Word) :
    (hmmCut decode cs).flatten = cs := by
  unfold hmmCut
  rw [tokensFromStates_flatten]
  simp only [List.nil_append]
  refine List.map_fst_zip cs _ ?_
  unfold padStates
  rw [List.length_take]
  simp

theorem flushBuf_flatten (decode : Word → List HmmState) (d : Dict) (buf : Word) :
    (flushBuf decode d buf).flatten = buf := by
  unfold flushBuf
  by_cases h1 : buf.length = 1
  · rw [if_pos h1]
    simp
  · rw [if_neg h1]
    by_cases h2 : (getFreq d buf).isNone = true
    · rw [if_pos h2]
      exact hmmCut_flatten decode buf
    · rw [if_neg h2]
      exact flatten_map_singleton buf

theorem cutNoHmmGo_flatten (cs : Word) (route : List (Int × Nat))
    (hv : ∀ z, z < cs.length →
      z ≤ (route.getD z (0, 0)).2 ∧ (route.getD z (0, 0)).2 < cs.length) :
    ∀ fuel x buf, x ≤ cs.length → cs.length - x ≤ fuel →
      (cutNoHmmGo cs route fuel x buf).flatten = buf ++ cs.drop x := by
  intro fuel
  induction fuel with
  | zero =>
    intro x buf hxn hfx
    have hx : x = cs.length := by omega
    subst hx
    rw [List.drop_length]
    by_cases h : buf = [] <;> simp [cutNoHmmGo, h]
  | succ fuel ih =>
    intro x buf hxn hfx
    by_cases hx : x < cs.length
    · have hz := hv x hx
      have hstep : (cs.drop x).take ((route.getD x (0, 0)).2 + 1 - x)
          ++ cs.drop ((route.getD x (0, 0)).2 + 1) = cs.drop x := by
        have := List.drop_take_append_drop cs x ((route.getD x (0, 0)).2 + 1 - x)
        rw [show x + ((route.getD x (0, 0)).2 + 1 - x) = (route.getD x (0, 0)).2 + 1
          by omega] at this
        exact this
      simp only [cutNoHmmGo, if_pos hx]
      by_cases hb : ((cs.drop x).take ((route.getD x (0, 0)).2 + 1 - x)).length = 1
          ∧ ((cs.drop x).take ((route.getD x (0, 0)).2 + 1 - x)).all isAsciiAlnum
      · rw [if_pos hb, ih ((route.getD x (0, 0)).2 + 1) _ (by omega) (by omega)]
        rw [List.append_assoc, hstep]
      · rw [if_neg hb]
        simp only [List.flatten_append, List.flatten_cons, List.flatten_nil,
          List.append_nil]
        rw [ih ((route.getD x (0, 0)).2 + 1) [] (by omega) (by omega)]
        simp only [List.nil_append]
        by_cases hbuf : buf = []
        · subst hbuf
          simpa using hstep
        · simp only [if_neg hbuf, List.flatten_cons, List.flatten_nil, List.append_nil,
            List.append_assoc]
          rw [hstep]
    · have hxeq : x = cs.length := by omega
      subst hxeq
      rw [List.drop_length]
      simp only [cutNoHmmGo, if_neg hx]
      by_cases h : buf = [] <;> simp [h]

theorem cutDagNoHmm_flatten (lnf : Nat → Int) (logtotal : Int) (d : Dict) (cs : Word) :
    (cutDagNoHmm lnf logtotal d cs).flatten = cs := by
  unfold cutDagNoHmm
  rw [cutNoHmmGo_flatten cs _ (calcRoute_valid lnf logtotal d cs) (cs.length + 1) 0 []
    (by omega) (by omega)]
  rfl

theorem cutHmmGo_flatten (decode : Word → List HmmState) (d : Dict) (cs : Word)
    (route : List (Int × Nat))
    (hv : ∀ z, z < cs.length →
      z ≤ (route.getD z (0, 0)).2 ∧ (route.getD z (0, 0)).2 < cs.length) :
    ∀ fuel x buf, x ≤ cs.length → cs.length - x ≤ fuel →
      (cutHmmGo decode d cs route fuel x buf).flatten = buf ++ cs.drop x := by
  intro fuel
  induction fuel with
  | zero =>
    intro x buf hxn hfx
    have hx : x = cs.length := by omega
    subst hx
    rw [List.drop_length]
    by_cases h : buf = [] <;>
      simp [cutHmmGo, h, flushBuf_flatten]
  | succ fuel ih =>
    intro x buf hxn hfx
    by_cases hx : x < cs.length
    · have hz := hv x hx
      have hstep : (cs.drop x).take ((route.getD x (0, 0)).2 + 1 - x)
          ++ cs.drop ((route.getD x (0, 0)).2 + 1) = cs.drop x := by
        have := List.drop_take_append_drop cs x ((route.getD x (0, 0)).2 + 1 - x)
        rw [show x + ((route.getD x (0, 0)).2 + 1 - x) = (route.getD x (0, 0)).2 + 1
          by omega] at this
        exact this
      simp only [cutHmmGo, if_pos hx]
      by_cases hb : ((cs.drop x).take ((route.getD x (0, 0)).2 + 1 - x)).length = 1
      · rw [if_pos hb, ih ((route.getD x (0, 0)).2 + 1) _ (by omega) (by omega)]
        rw [List.append_assoc, hstep]
      · rw [if_neg hb]
        simp only [List.flatten_append, List.flatten_cons, List.flatten_nil,
          List.append_nil]
        rw [ih ((route.getD x (0, 0)).2 + 1) [] (by omega) (by omega)]
        simp only [List.nil_append]
        by_cases hbuf : buf = []
        · subst hbuf
          simpa using hstep
        · simp only [if_neg hbuf, flushBuf_flatten, List.append_assoc]
          rw [hstep]
    · have hxeq : x = cs.length := by omega
      subst hxeq
      rw [List.drop_length]
      simp only [cutHmmGo, if_neg hx]
      by_cases h : buf = [] <;> simp [h, flushBuf_flatten]

theorem cutDagHmm_flatten (decode : Word → List HmmState) (lnf : Nat → Int)
    (logtotal : Int) (d : Dict) (cs : Word) :
    (cutDagHmm decode lnf logtotal d cs).flatten = cs := by
  unfold cutDagHmm
  rw [cutHmmGo_flatten decode d cs _ (calcRoute_valid lnf logtotal d cs)
    (cs.length + 1) 0 [] (by omega) (by omega)]
  rfl

theorem runsBy_cons (p : Char → Bool) (c : Char) (cs : Word) :
    runsBy p (c :: cs)
      = match runsBy p cs with
        | [] => [[c]]
        | r :: rs' =>
          match r with
          | [] => [c] :: rs'
          | b :: _ => if p c = p b then (c :: r) :: rs' else [c] :: r :: rs' := rfl

theorem runsBy_flatten (p : Char → Bool) (cs : Word) :
    (runsBy p cs).flatten = cs := by
  induction cs with
  | nil => rfl
  | cons c cs ih =>
    rw [runsBy_cons]
    cases hr : runsBy p cs with
    | nil =>
      rw [hr] at ih
      simp at ih
      simp [← ih]
    | cons r rs' =>
      rw [hr] at ih
      dsimp only
      cases r with
      | nil =>
        simp at ih
        simp [← ih]
      | cons b r' =>
        dsimp only
        by_cases hc : p c = p b
        · rw [if_pos hc]
          simp at ih ⊢
          simp [← ih]
        · rw [if_neg hc]
          simp at ih ⊢
          simp [← ih]

theorem skipTokens_flatten : ∀ cs : Word, (skipTokens cs).flatten = cs
  | [] => rfl
  | [c] => by simp [skipTokens]
  | c1 :: c2 :: rest => by
    by_cases h : c1 = '\r' ∧ c2 = '\n'
    · obtain ⟨h1, h2⟩ := h
      subst h1
      subst h2
      simp [skipTokens, skipTokens_flatten rest]
    · simp [skipTokens, h, skipTokens_flatten (c2 :: rest)]

theorem flatten_blocks (g : Word → List Word) (rs : List Word)
    (h : ∀ b ∈ rs, (g b).flatten = b) :
    ((rs.map g).flatten).flatten = rs.flatten := by
  induction rs with
  | nil => rfl
  | cons r rs ih =>
    simp only [List.map_cons, List.flatten_cons, List.flatten_append]
    rw [h r (by simp), ih (fun b hb => h b (by simp [hb]))]

/-- C1: for every input, every `use_hmm` flag, every dictionary store, every
abstracted score function and every HMM decoder, the concatenation of the
tokens returned by `Jieba::cut` equals the input exactly (no character
dropped or duplicated, whitespace preserved inside its tokens); an input
with no characters returns the empty token list. -/
theorem cut_concat (decode : Word → List HmmState) (lnf : Nat → Int) (logtotal : Int)
    (d : Dict) (hmm : Bool) (cs : Word) :
    (cut decode lnf logtotal d hmm cs).flatten = cs
    ∧ cut decode lnf logtotal d hmm [] = [] := by
  constructor
  · unfold cut
    rw [flatten_blocks _ _ ?_, runsBy_flatten]
    intro b _
    by_cases hb : b.any isHanDefault
    · rw [if_pos hb]
      by_cases hh : hmm
      · rw [if_pos hh]
        exact cutDagHmm_flatten decode lnf logtotal d b
      · rw [if_neg hh]
        exact cutDagNoHmm_flatten lnf logtotal d b
    · rw [if_neg hb]
      exact skipTokens_flatten b
  · rfl

/-- C6: when `cut_dag_hmm` flushes a non-empty buffer of accumulated
single-character words -- both on arrival of a multi-character word and at
the end of the block -- a buffer of exactly one character is emitted as is; a
longer buffer PRESENT in the dictionary store (the code test
`freq.get(&buf).is_none()`, which also accepts frequency-0 sentinel
entries) is emitted one character per token; a longer absent buffer is
segmented by the HMM. -/
theorem hmm_buffer_flush (decode : Word → List HmmState) (d : Dict) (cs : Word)
    (route : List (Int × Nat)) (fuel x : Nat) :
    (∀ buf : Word, 1 < buf.length → getFreq d buf ≠ none →
      flushBuf decode d buf = buf.map (fun ch => [ch]))
    ∧ (∀ buf : Word, 1 < buf.length → getFreq d buf = none →
      flushBuf decode d buf = hmmCut decode buf)
    ∧ (∀ c : Char, flushBuf decode d [c] = [[c]])
    ∧ (∀ buf : Word, x < cs.length →
        ((cs.drop x).take ((route.getD x (0, 0)).2 + 1 - x)).length ≠ 1 → buf ≠ [] →
        cutHmmGo decode d cs route (fuel + 1) x buf
          = flushBuf decode d buf
            ++ [(cs.drop x).take ((route.getD x (0, 0)).2 + 1 - x)]
            ++ cutHmmGo decode d cs route fuel ((route.getD x (0, 0)).2 + 1) [])
    ∧ (∀ buf : Word, ¬x < cs.length → buf ≠ [] →
        cutHmmGo decode d cs route (fuel + 1) x buf = flushBuf decode d buf) := by
  refine ⟨?_, ?_, ?_, ?_, ?_⟩
  · intro buf hlen hget
    unfold flushBuf
    rw [if_neg (by omega), if_neg (by simp [Option.isNone_iff_eq_none]; exact hget)]
  · intro buf hlen hget
    unfold flushBuf
    rw [if_neg (by omega), if_pos (by simp [Option.isNone_iff_eq_none]; exact hget)]
  · intro c
    unfold flushBuf
    rw [if_pos (by simp)]
  · intro buf hx hlen hbuf
    simp only [cutHmmGo, if_pos hx, if_neg hlen, if_neg hbuf]
  · intro buf hx hbuf
    simp only [cutHmmGo, if_neg hx, if_neg hbuf]

/-- C6 witness: concrete flushes on the store loaded from `ab 2` -- the
present buffer `ab` is split per character, the absent buffer `xy` goes to
the HMM, a one-character buffer is emitted as is, and both flush sites of the
loop fire. -/
theorem hmm_buffer_flush_witness :
    flushBuf decodeOneWord dAB "ab".toList = "ab".toList.map (fun ch => [ch])
    ∧ flushBuf decodeOneWord dAB "xy".toList = hmmCut decodeOneWord "xy".toList
    ∧ flushBuf decodeOneWord dAB ['q'] = [['q']]
    ∧ cutHmmGo decodeOneWord dAB "ab".toList (calcRoute lnfNat 0 dAB "ab".toList)
        (5 + 1) 0 ['z']
        = flushBuf decodeOneWord dAB ['z']
          ++ [("ab".toList.drop 0).take
                (((calcRoute lnfNat 0 dAB "ab".toList).getD 0 (0, 0)).2 + 1 - 0)]
          ++ cutHmmGo decodeOneWord dAB "ab".toList (calcRoute lnfNat 0 dAB "ab".toList)
              5 (((calcRoute lnfNat 0 dAB "ab".toList).getD 0 (0, 0)).2 + 1) []
    ∧ cutHmmGo decodeOneWord dAB "ab".toList (calcRoute lnfNat 0 dAB "ab".toList)
        (5 + 1) 7 ['z'] = flushBuf decodeOneWord dAB ['z'] :=
  ⟨(hmm_buffer_flush decodeOneWord dAB "ab".toList
      (calcRoute lnfNat 0 dAB "ab".toList) 5 0).1 "ab".toList (by decide) (by decide),
   (hmm_buffer_flush decodeOneWord dAB "ab".toList
      (calcRoute lnfNat 0 dAB "ab".toList) 5 0).2.1 "xy".toList (by decide) (by decide),
   (hmm_buffer_flush decodeOneWord dAB "ab".toList
      (calcRoute lnfNat 0 dAB "ab".toList) 5 0).2.2.1 'q',
   (hmm_buffer_flush decodeOneWord dAB "ab".toList
      (calcRoute lnfNat 0 dAB "ab".toList) 5 0).2.2.2.1 ['z'] (by decide) (by decide)
     (by decide),
   (hmm_buffer_flush decodeOneWord dAB "ab".toList
      (calcRoute lnfNat 0 dAB "ab".toList) 5 7).2.2.2.2 ['z'] (by decide) (by decide)⟩

theorem runsBy_single_false (p : Char → Bool) :
    ∀ cs : Word, cs ≠ [] → (∀ c ∈ cs, p c = false) → runsBy p cs = [cs] := by
  intro cs
  induction cs with
  | nil => intro h; exact absurd rfl h
  | cons c cs ih =>
    intro _ hall
    rw [runsBy_cons]
    rcases cs with _ | ⟨c2, cs2⟩
    · rfl
    · have hr : runsBy p (c2 :: cs2) = [c2 :: cs2] := by
        refine ih (by simp) ?_
        intro a ha
        exact hall a (by simp [ha])
      rw [hr]
      dsimp only
      rw [if_pos (by rw [hall c (by simp), hall c2 (by simp)])]

theorem skipTokens_shape :
    ∀ cs : Word, ∀ t ∈ skipTokens cs, t = ['\r', '\n'] ∨ ∃ c, t = [c]
  | [] => by simp [skipTokens]
  | [c] => by
    intro t ht
    simp [skipTokens] at ht
    exact Or.inr ⟨c, ht⟩
  | c1 :: c2 :: rest => by
    intro t ht
    by_cases h : c1 = '\r' ∧ c2 = '\n'
    · rw [skipTokens, if_pos h] at ht
      rcases List.mem_cons.mp ht with rfl | ht
      · exact Or.inl rfl
      · exact skipTokens_shape rest t ht
    · rw [skipTokens, if_neg h] at ht
      rcases List.mem_cons.mp ht with rfl | ht
      · exact Or.inr ⟨c1, rfl⟩
      · exact skipTokens_shape (c2 :: rest) t ht

/-- C7 (amended): inside a non-dictionary block the secondary pass emits each
`\r\n` pair (scanned left to right) as one two-character token and EVERY
other character -- whitespace included -- as its own one-character token; a
maximal whitespace run of k characters therefore yields k separate tokens
(`\r\n` pairs counted once), not a single token. -/
theorem skip_pass (decode : Word → List HmmState) (lnf : Nat → Int) (logtotal : Int)
    (d : Dict) (hmm : Bool) (cs : Word)
    (hno : ∀ c ∈ cs, isHanDefault c = false) :
    cut decode lnf logtotal d hmm cs = skipTokens cs
    ∧ (skipTokens cs).flatten = cs
    ∧ (∀ t ∈ skipTokens cs, t = ['\r', '\n'] ∨ ∃ c, t = [c]) := by
  refine ⟨?_, skipTokens_flatten cs, skipTokens_shape cs⟩
  by_cases hcs : cs = []
  · subst hcs
    rfl
  · unfold cut
    rw [runsBy_single_false isHanDefault cs hcs hno]
    have hany : cs.any isHanDefault = false := by
      rw [List.any_eq_false]
      intro a ha
      simp [hno a ha]
    simp only [List.map_cons, List.map_nil, List.flatten_cons, List.flatten_nil,
      List.append_nil, hany]
    simp

/-- C7 witness: on the all-"other" input consisting of a space, a comma and a
`\r\n` pair, `cut` runs the secondary pass and every token is an atom. -/
theorem skip_pass_witness :
    cut decodeAllS lnfNat 0 dAB false " ,\r\n".toList = skipTokens " ,\r\n".toList
    ∧ (skipTokens " ,\r\n".toList).flatten = " ,\r\n".toList
    ∧ (∀ t ∈ skipTokens " ,\r\n".toList, t = ['\r', '\n'] ∨ ∃ c, t = [c]) :=
  skip_pass decodeAllS lnfNat 0 dAB false " ,\r\n".toList (by decide)

/-- C7 counterexample: the claim says a maximal whitespace run is emitted
verbatim as a single token; on the two-space input the code emits two
one-space tokens, and the two-character run is not among the tokens. -/
theorem skip_ws_run_cex :
    cut decodeAllS lnfNat 0 dAB false "  ".toList = [[' '], [' ']]
    ∧ [' ', ' '] ∉ cut decodeAllS lnfNat 0 dAB false "  ".toList :=
  ⟨by decide, by decide⟩

theorem runsBy_props (p : Char → Bool) :
    ∀ cs : Word,
      (∀ r ∈ runsBy p cs, r ≠ [] ∧ ∀ a ∈ r, ∀ b ∈ r, p a = p b)
      ∧ List.Chain' (fun r s => ∀ a ∈ r, ∀ b ∈ s, p a ≠ p b) (runsBy p cs) := by
  intro cs
  induction cs with
  | nil =>
    refine ⟨?_, ?_⟩ <;> simp [show runsBy p [] = [] from rfl]
  | cons c cs ih =>
    obtain ⟨hruns, hchain⟩ := ih
    rw [runsBy_cons]
    cases hr : runsBy p cs with
    | nil =>
      refine ⟨?_, ?_⟩
      · intro r hrr
        simp at hrr
        subst hrr
        exact ⟨by simp, by simp⟩
      · simp
    | cons r rs' =>
      rw [hr] at hruns hchain
      cases r with
      | nil =>
        exact absurd rfl (hruns [] (by simp)).1
      | cons b r' =>
        dsimp only
        have hconst := (hruns (b :: r') (by simp)).2
        have hheadrel : ∀ s ∈ rs'.head?, ∀ a ∈ b :: r', ∀ b2 ∈ s, p a ≠ p b2 :=
          fun s hs => (List.chain'_cons'.mp hchain).1 s hs
        have hchain' : List.Chain' (fun r s => ∀ a ∈ r, ∀ b ∈ s, p a ≠ p b) rs' :=
          (List.chain'_cons'.mp hchain).2
        by_cases hc : p c = p b
        · rw [if_pos hc]
          refine ⟨?_, ?_⟩
          · intro r2 hr2
            rcases List.mem_cons.mp hr2 with rfl | hr2
            · refine ⟨by simp, ?_⟩
              have hclass : ∀ a ∈ c :: b :: r', p a = p b := by
                intro a ha
                rcases List.mem_cons.mp ha with rfl | ha
                · exact hc
                · exact hconst a ha b (by simp)
              intro a ha b2 hb2
              rw [hclass a ha, hclass b2 hb2]
            · exact hruns r2 (by simp [hr2])
          · rw [List.chain'_cons']
            refine ⟨?_, hchain'⟩
            intro s hs a ha b2 hb2
            have hab : p a = p b := by
              rcases List.mem_cons.mp ha with rfl | ha
              · exact hc
              · exact hconst a ha b (by simp)
            rw [hab]
            exact hheadrel s hs b (by simp) b2 hb2
        · rw [if_neg hc]
          refine ⟨?_, ?_⟩
          · intro r2 hr2
            rcases List.mem_cons.mp hr2 with rfl | hr2
            · exact ⟨by simp, by simp⟩
            · exact hruns r2 hr2
          · rw [List.chain'_cons']
            refine ⟨?_, hchain⟩
            intro s hs a ha b2 hb2
            simp at hs
            subst hs
            simp at ha
            subst ha
            have := hconst b2 hb2 b (by simp)
            rw [this]
            exact hc

/-- C8 (amended): the dictionary-eligible predicate of `RE_HAN_DEFAULT`
accepts exactly the Han ideographs U+4E00..U+9FD5, the ASCII letters and
digits, and the SIX punctuation characters `+ # & . _ %` (the hyphen `-` is
NOT accepted); `cut` splits the input into maximal runs of equal eligibility
(non-empty, class-constant, adjacent runs of different class, concatenating
to the input, in original order) and routes the runs containing eligible
characters -- which are then entirely eligible -- to the DAG pipeline and
the others to the secondary pass. -/
theorem han_blocks (decode : Word → List HmmState) (lnf : Nat → Int) (logtotal : Int)
    (d : Dict) (hmm : Bool) (cs : Word) (c : Char) :
    (isHanDefault c = true ↔
      ((0x4E00 ≤ c.toNat ∧ c.toNat ≤ 0x9FD5)
        ∨ (97 ≤ c.toNat ∧ c.toNat ≤ 122)
        ∨ (65 ≤ c.toNat ∧ c.toNat ≤ 90)
        ∨ (48 ≤ c.toNat ∧ c.toNat ≤ 57)
        ∨ c ∈ (['+', '#', '&', '.', '_', '%'] : List Char)))
    ∧ (runsBy isHanDefault cs).flatten = cs
    ∧ (∀ r ∈ runsBy isHanDefault cs,
        r ≠ [] ∧ ∀ a ∈ r, ∀ b ∈ r, isHanDefault a = isHanDefault b)
    ∧ List.Chain' (fun r s => ∀ a ∈ r, ∀ b ∈ s, isHanDefault a ≠ isHanDefault b)
        (runsBy isHanDefault cs)
    ∧ cut decode lnf logtotal d hmm cs
        = ((runsBy isHanDefault cs).map (fun b =>
            if b.any isHanDefault then
              (if hmm then cutDagHmm decode lnf logtotal d b
                else cutDagNoHmm lnf logtotal d b)
            else skipTokens b)).flatten
    ∧ (∀ r ∈ runsBy isHanDefault cs, r.any isHanDefault = true →
        ∀ a ∈ r, isHanDefault a = true) := by
  refine ⟨?_, runsBy_flatten isHanDefault cs, (runsBy_props isHanDefault cs).1,
    (runsBy_props isHanDefault cs).2, rfl, ?_⟩
  · unfold isHanDefault
    simp only [Bool.or_eq_true, decide_eq_true_eq, beq_iff_eq, List.mem_cons,
      List.mem_singleton, List.not_mem_nil, or_false]
    tauto
  · intro r hr hany a ha
    rw [List.any_eq_true] at hany
    obtain ⟨b, hb, hpb⟩ := hany
    rw [((runsBy_props isHanDefault cs).1 r hr).2 a ha b hb]
    exact hpb

/-- C8 witness: the block decomposition of `a-b` (the hyphen separates two
dictionary blocks) together with the predicate characterization at `&` and
the all-eligible property of the block `a`. -/
theorem han_blocks_witness :
    (isHanDefault '&' = true ↔
      ((0x4E00 ≤ '&'.toNat ∧ '&'.toNat ≤ 0x9FD5)
        ∨ (97 ≤ '&'.toNat ∧ '&'.toNat ≤ 122)
        ∨ (65 ≤ '&'.toNat ∧ '&'.toNat ≤ 90)
        ∨ (48 ≤ '&'.toNat ∧ '&'.toNat ≤ 57)
        ∨ '&' ∈ (['+', '#', '&', '.', '_', '%'] : List Char)))
    ∧ (runsBy isHanDefault "a-b".toList).flatten = "a-b".toList
    ∧ (∀ a ∈ (['a'] : Word), isHanDefault a = true) :=
  ⟨(han_blocks decodeAllS lnfNat 0 dAB false "a-b".toList '&').1,
   (han_blocks decodeAllS lnfNat 0 dAB false "a-b".toList '&').2.1,
   (han_blocks decodeAllS lnfNat 0 dAB false "a-b".toList '&').2.2.2.2.2
     ['a'] (by decide) (by decide)⟩

/-- C8 counterexample: the claim lists the hyphen `-` among the accepted
punctuation; the class in the code does not contain it, so `a-b` splits into
three blocks where the predicate of the claim would keep one. -/
theorem han_hyphen_cex :
    specHanEligible '-' = true
    ∧ isHanDefault '-' = false
    ∧ runsBy isHanDefault "a-b".toList = [['a'], ['-'], ['b']]
    ∧ runsBy specHanEligible "a-b".toList = [['a', '-', 'b']] :=
  ⟨by decide, by decide, by decide, by decide⟩

/-- C9 (amended): `cut_all_internal` walks the DAG left to right maintaining
`old_j` (initially -1).  A position `k` whose list is a single element `[e]`
with `k > old_j` emits `chars[k..=e]` and sets `old_j := e`; EVERY other
position runs the inner loop, which emits `chars[k..=j]` for each `j` in
`ends(k)` with `j > k` -- regardless of `old_j`, which is set to `j` at each
emission.  So the emission condition for a multi-character candidate is
`j > k`, not `j` past the last emitted end (a single-element `[e]` with
`e > k` is emitted even when `k <= old_j`).  On `网球拍卖会` over the
canonical dictionary entries it returns exactly
`[网球, 网球拍, 球拍, 拍卖, 拍卖会]`. -/
theorem cut_all_internal_result :
    cutAllInternal dMini "网球拍卖会".toList
      = ["网球".toList, "网球拍".toList, "球拍".toList, "拍卖".toList, "拍卖会".toList]
    ∧ (∀ (cs : Word) (k : Nat) (js : List Nat) (oldj : Int),
        (cutAllInner cs k js oldj).1
          = (js.filter (fun j => decide (k < j))).map (fun j => wordSub cs k j))
    ∧ (∀ (d : Dict) (cs : Word) (k : Nat) (ks : List Nat) (oldj : Int) (e : Nat),
        dagFor d cs k = [e] → oldj < Int.ofNat k →
        cutAllGo d cs (k :: ks) oldj
          = wordSub cs k e :: cutAllGo d cs ks (Int.ofNat e))
    ∧ (∀ (d : Dict) (cs : Word) (k : Nat) (ks : List Nat) (oldj : Int),
        ¬((dagFor d cs k).length = 1 ∧ oldj < Int.ofNat k) →
        cutAllGo d cs (k :: ks) oldj
          = (cutAllInner cs k (dagFor d cs k) oldj).1
            ++ cutAllGo d cs ks (cutAllInner cs k (dagFor d cs k) oldj).2)
    ∧ cutAllInternal dABBC "abc".toList = ["ab".toList, "bc".toList] := by
  refine ⟨by decide, ?_, ?_, ?_, by decide⟩
  · intro cs k js
    induction js with
    | nil => intro oldj; rfl
    | cons j js ih =>
      intro oldj
      by_cases hj : k < j
      · simp only [cutAllInner, if_pos hj]
        rw [ih (Int.ofNat j)]
        simp [List.filter_cons, hj]
      · simp only [cutAllInner, if_neg hj]
        simp only [List.filter_cons]
        rw [if_neg (by simpa using hj)]
        exact ih oldj
  · intro d cs k ks oldj e h1 h2
    simp only [cutAllGo, h1]
    rw [if_pos ⟨by simp, h2⟩]
    rfl
  · intro d cs k ks oldj h
    simp only [cutAllGo]
    rw [if_neg h]

/-- C9 witness: on the store loaded from `ab 2` and `bc 2` and the sentence
`abc`, the single-element branch fires at position 0 (`old_j = -1 < 0`), and
at position 1 the single-element list `[2]` with `old_j = 1` goes through the
inner loop -- which still emits `bc` since `2 > 1`. -/
theorem cut_all_internal_result_witness :
    cutAllGo dABBC "abc".toList (0 :: [1, 2]) (-1)
      = wordSub "abc".toList 0 1 :: cutAllGo dABBC "abc".toList [1, 2] (Int.ofNat 1)
    ∧ cutAllGo dABBC "abc".toList (1 :: [2]) 1
        = (cutAllInner "abc".toList 1 (dagFor dABBC "abc".toList 1) 1).1
          ++ cutAllGo dABBC "abc".toList [2]
              (cutAllInner "abc".toList 1 (dagFor dABBC "abc".toList 1) 1).2
    ∧ (cutAllInner "abc".toList 1 (dagFor dABBC "abc".toList 1) 1).1
        = [['b', 'c']] :=
  ⟨cut_all_internal_result.2.2.1 dABBC "abc".toList 0 [1, 2] (-1) 1
     (by decide) (by decide),
   cut_all_internal_result.2.2.2.1 dABBC "abc".toList 1 [2] 1 (by decide),
   by decide⟩

/-- C9 counterexample: the walk rule as the claim states it (emit
`chars[k..=e]` for each `e > last_emitted_e`) produces a different token list
on `网球拍卖会` than the code: it would emit the single character `网` first
and could never emit `球拍`. -/
theorem cut_all_walk_cex :
    cutAllInternal dMini "网球拍卖会".toList
      = ["网球".toList, "网球拍".toList, "球拍".toList, "拍卖".toList, "拍卖会".toList]
    ∧ specCutAllWalk dMini "网球拍卖会".toList
      = ["网".toList, "网球".toList, "网球拍".toList, "拍卖".toList, "拍卖会".toList]
    ∧ specCutAllWalk dMini "网球拍卖会".toList
        ≠ cutAllInternal dMini "网球拍卖会".toList :=
  ⟨by decide, by decide, by decide⟩

end JiebaRs
